import Mathlib

/-
  Verification of the htmldom_read library (src/lib.rs).

  Shallow embedding notes:
  * The external tokenizer (quick_xml) is out of scope; the model starts from
    the token sequence `{Start, End, Empty, Text}` that `Node::from_html`
    collects before normalization.
  * `Arc<Node>` allocations are modelled by tagging every `Sharable` handle
    with a natural-number allocation id; `Arc::new` draws a fresh id from a
    counter threaded through the functions that allocate, and `Arc::ptr_eq`
    is id equality.
  * Rust panics (`unwrap` on `None`, `usize` underflow) are modelled by
    `Option`: a `none` result of a fallible function is a panic.
-/

namespace HtmlDom

/-- Rust `char::is_whitespace` (Unicode White_Space property). -/
def isRustWhitespace (c : Char) : Bool :=
  c = ' ' || c = '\t' || c = '\n' || c = '\x0b' || c = '\x0c' || c = '\r' ||
  c = '\u0085' || c = ' ' || c = ' ' ||
  (0x2000 ≤ c.toNat && c.toNat ≤ 0x200A) ||
  c = ' ' || c = ' ' || c = ' ' || c = ' ' || c = '　'

/-- `Attribute` of a tag (src/lib.rs `struct Attribute`). -/
structure Attribute where
  name : String
  values : List String
deriving DecidableEq, Repr

/-- `OpeningTag` (src/lib.rs `struct OpeningTag`). `empty` = self-closing. -/
structure OpeningTag where
  empty : Bool
  name : String
  attrs : List Attribute
deriving DecidableEq, Repr

mutual
/-- `struct Node` (src/lib.rs): start tag, inline text, closing-tag name,
children.  The `end` field is `endTag` (`end` is a Lean keyword). -/
inductive Node : Type where
  | mk : Option OpeningTag → Option String → Option String → List NodeAccess → Node

/-- `enum NodeAccess`: `Owned(Node)` or `Sharable(Arc<Node>)`; the `Nat` is
the allocation id of the `Arc` (two handles alias iff ids are equal). -/
inductive NodeAccess : Type where
  | Owned : Node → NodeAccess
  | Sharable : Nat → Node → NodeAccess
end

/-- Field accessor for `Node.start`. -/
def Node.start : Node → Option OpeningTag
  | .mk s _ _ _ => s

/-- Field accessor for `Node.text`. -/
def Node.text : Node → Option String
  | .mk _ t _ _ => t

/-- Field accessor for the `end` field of `Node`. -/
def Node.endTag : Node → Option String
  | .mk _ _ e _ => e

/-- Field accessor for `Node.children` (the `Children` vector). -/
def Node.children : Node → List NodeAccess
  | .mk _ _ _ c => c

/-- The `Node` behind a `NodeAccess` (Rust `Deref for NodeAccess`). -/
def nodeOf : NodeAccess → Node
  | .Owned n => n
  | .Sharable _ n => n

def sizeOf_nodeOf_lt (a : NodeAccess) : sizeOf (nodeOf a) < sizeOf a := by
  cases a <;> simp [nodeOf]

def sizeOf_children_lt (n : Node) : sizeOf n.children < sizeOf n := by
  cases n; simp [Node.children]

/-- A quick smoke-test value. -/
def exampleNode : Node := Node.mk none (some "hi") none []

/-- The token events `Node::from_html` collects from the external tokenizer
(`quick_xml` events `Start`, `End`, `Empty`, `Text`).  A `Start` token carries
its raw name and the attribute list the tokenizer yields: `none` entries are
attributes whose parsing fails (`Err(_)` in `e.attributes()`, skipped by the
builder), `some (k, v)` carries the attribute key and raw value string. -/
inductive Token : Type where
  | Start : String → List (Option (String × String)) → Token
  | End : String → Token
  | Empty : String → Token
  | Text : String → Token
deriving DecidableEq, Repr

/-- The `trim_start` closure in `Node::from_html` (src/lib.rs lines 400-419):
if the first char is a newline strip all leading whitespace; if it is a tab or
space, strip only when every remaining char is a tab, space or newline;
otherwise leave the string untouched. -/
def trim_start (s : String) : String :=
  match s.data with
  | [] => s
  | first :: rest =>
    if first = '\n' then ⟨s.data.dropWhile isRustWhitespace⟩
    else if first = '\t' ∨ first = ' ' then
      if ∀ ch ∈ rest, ch = '\t' ∨ ch = ' ' ∨ ch = '\n' then
        ⟨s.data.dropWhile isRustWhitespace⟩
      else s
    else s

/-- The `trim_end` closure in `Node::from_html` (src/lib.rs lines 420-428):
if the text contains a byte `\n` anywhere (memchr), strip trailing
whitespace, else leave untouched. -/
def trim_end (s : String) : String :=
  if s.data.contains '\n' then ⟨(s.data.reverse.dropWhile isRustWhitespace).reverse⟩
  else s

/-- Normalization of one `Text` token (the body of the `fixed_list` loop,
src/lib.rs lines 430-445): `none` means the token is dropped because the
trimmed text is empty. -/
def normText (s : String) : Option String :=
  let s' := trim_end (trim_start s)
  if s'.data.isEmpty then none else some s'

/-- The whitespace-normalization pass over the whole event list
(src/lib.rs `fixed_list`): `Text` tokens are trimmed and dropped when they
become empty, all other tokens are kept unchanged, in order. -/
def normalize : List Token → List Token
  | [] => []
  | Token.Text t :: rest =>
    (match normText t with
     | none => normalize rest
     | some t' => Token.Text t' :: normalize rest)
  | Token.Start n a :: rest => Token.Start n a :: normalize rest
  | Token.End n :: rest => Token.End n :: normalize rest
  | Token.Empty n :: rest => Token.Empty n :: normalize rest

/-- Modelled from the spec wording of the normalizer (§4.1 / claim C6):
leading whitespace is stripped exactly when the first character is a newline,
or it is a space or tab and every remaining character is a space, tab or
newline. -/
def leadStripCond (s : String) : Prop :=
  match s.data with
  | [] => False
  | first :: rest =>
    first = '\n' ∨
      ((first = ' ' ∨ first = '\t') ∧ ∀ ch ∈ rest, ch = ' ' ∨ ch = '\t' ∨ ch = '\n')

instance (s : String) : Decidable (leadStripCond s) := by
  unfold leadStripCond
  cases s.data <;> infer_instance

/-- Modelled from the spec wording of the normalizer (§4.1 / claim C6): the
per-token normalization described by the spec sentences — strip leading
whitespace under `leadStripCond`, strip trailing whitespace exactly when the
text contains a newline, drop the token when the result is empty. -/
def normTextSpec (s : String) : Option String :=
  let s1 := if leadStripCond s then (⟨s.data.dropWhile isRustWhitespace⟩ : String) else s
  let s2 := if s1.data.contains '\n' then
      (⟨(s1.data.reverse.dropWhile isRustWhitespace).reverse⟩ : String) else s1
  if s2.data.isEmpty then none else some s2

/-- Modelled from the spec wording (§4.1 / claim C6): the whole pass is a
`filterMap` over the token sequence — surviving tokens keep their relative
order, only `Text` tokens are rewritten or dropped. -/
def normalizeSpec (toks : List Token) : List Token :=
  toks.filterMap (fun t =>
    match t with
    | Token.Text s => (normTextSpec s).map Token.Text
    | t => some t)

/-- `enum ChildrenType` (src/lib.rs): how children are stored. -/
inductive ChildrenType : Type where
  | Owned : ChildrenType
  | Sharable : ChildrenType
deriving DecidableEq, Repr

/-- `struct LoadSettings` (src/lib.rs): `all_text_separately` and
`children_type` (defaults `true` / `Owned`). -/
structure LoadSettings where
  all_text_separately : Bool
  children_type : ChildrenType
deriving DecidableEq, Repr

/-- `impl Default for LoadSettings` (src/lib.rs lines 1109-1117). -/
def LoadSettings.default : LoadSettings :=
  { all_text_separately := true, children_type := ChildrenType.Owned }

/-- Rust `str::split_whitespace` helper: accumulate the current word
(reversed) and split on `isRustWhitespace`, skipping empty words. -/
def splitWsGo : List Char → List Char → List String
  | [], acc => if acc.isEmpty then [] else [⟨acc.reverse⟩]
  | ch :: rest, acc =>
    if isRustWhitespace ch then
      if acc.isEmpty then splitWsGo rest []
      else (⟨acc.reverse⟩ : String) :: splitWsGo rest []
    else splitWsGo rest (ch :: acc)

/-- Rust `str::split_whitespace` collected to a list. -/
def splitWhitespaceS (s : String) : List String := splitWsGo s.data []

/-- `.split_whitespace().next().unwrap()` applied to a tag name
(src/lib.rs lines 466-469 and 613-617); yields `""` in the (tokenizer-
unreachable) case of an all-whitespace name, where the source unwrap
would panic. -/
def firstWord (s : String) : String :=
  ⟨(s.data.dropWhile isRustWhitespace).takeWhile (fun c => !isRustWhitespace c)⟩

/-- `Attribute::from_name_and_str_values` (src/lib.rs lines 1006-1025):
split the raw value on whitespace. -/
def Attribute.from_name_and_str_values (name : String) (values : String) : Attribute :=
  { name := name, values := splitWhitespaceS values }

/-- The text-peek step of `next_node` (src/lib.rs lines 498-516): consume the
next token as the provisional text iff it is a `Text` token. -/
def peelText : List Token → Option String × List Token
  | Token.Text t :: rest => (some t, rest)
  | toks => (none, toks)

/-- The closing-tag matching step of `next_node` (src/lib.rs lines 557-586):
consume the next token as the closing tag iff it is an `End` token whose name
equals the opening tag's name; otherwise consume nothing. -/
def matchEnd (nm : String) : List Token → Option String × List Token
  | Token.End en :: rest =>
    if en = nm then (some en, rest) else (none, Token.End en :: rest)
  | toks => (none, toks)

/-- The text-placement policy of `next_node` (src/lib.rs lines 536-548): a
provisional text is hoisted into its own node prepended to the children when
the children list is non-empty or `all_text_separately` is set; otherwise it
stays in the node's own `text` field. -/
def placeText (allSep : Bool) (text : Option String) (children : List Node) :
    Option String × List Node :=
  match text with
  | none => (none, children)
  | some t =>
    if !children.isEmpty || allSep then
      (none, Node.mk none (some t) none [] :: children)
    else (some t, children)

/-- `Children::iter_to_shared` (src/lib.rs lines 214-221): wrap each node in
a fresh `Arc` — ids are drawn in order from the allocation counter. -/
def wrapShared : List Node → Nat → List NodeAccess × Nat
  | [], ctr => ([], ctr)
  | n :: rest, ctr =>
    let r := wrapShared rest (ctr + 1)
    (NodeAccess.Sharable ctr n :: r.1, r.2)

/-- `Children::iter_to` (src/lib.rs lines 223-230): wrap a list of built
nodes as `Owned` or `Sharable` children. -/
def iter_to : ChildrenType → List Node → Nat → List NodeAccess × Nat
  | ChildrenType.Owned, ns, ctr => (ns.map NodeAccess.Owned, ctr)
  | ChildrenType.Sharable, ns, ctr => wrapShared ns ctr

/-- The attribute list built for a `Start` token (src/lib.rs lines 471-490):
malformed attributes (`none`) are skipped, the rest are parsed with
`Attribute::from_name_and_str_values`. -/
def buildAttrs (ats : List (Option (String × String))) : List Attribute :=
  ats.filterMap (fun a => a.map (fun p => Attribute.from_name_and_str_values p.1 p.2))

mutual
/-- `next_node` (src/lib.rs lines 454-635), with a fuel argument for
termination: reads one node (and recursively its children) from the token
list, returning the node (or `none` at sequence end / on an `End` token,
consuming nothing), the remaining tokens, and the allocation counter. -/
def next_node (s : LoadSettings) : Nat → List Token → Nat → Option Node × List Token × Nat
  | 0, toks, ctr => (none, toks, ctr)
  | fuel + 1, toks, ctr =>
    match toks with
    | [] => (none, toks, ctr)
    | Token.Start nm ats :: rest =>
      let start : OpeningTag :=
        { empty := false, name := firstWord nm, attrs := buildAttrs ats }
      let pt := peelText rest
      let col := collect_children s fuel pt.2 ctr
      let placed := placeText s.all_text_separately pt.1 col.1
      let wrapped := iter_to s.children_type placed.2 col.2.2
      let me := matchEnd start.name col.2.1
      (some (Node.mk (some start) placed.1 me.1 wrapped.1), me.2, wrapped.2)
    | Token.Text t :: rest =>
      (some (Node.mk none (some t) none []), rest, ctr)
    | Token.Empty nm :: rest =>
      (some (Node.mk (some { empty := true, name := firstWord nm, attrs := [] })
        none none []), rest, ctr)
    | Token.End e :: rest =>
      (none, Token.End e :: rest, ctr)

/-- The child-collection loop of `next_node` / the top level of `from_html`
(src/lib.rs lines 517-526 and 637-650): repeatedly read nodes until
`next_node` reports none (which consumes nothing). -/
def collect_children (s : LoadSettings) : Nat → List Token → Nat →
    List Node × List Token × Nat
  | 0, toks, ctr => ([], toks, ctr)
  | fuel + 1, toks, ctr =>
    match next_node s fuel toks ctr with
    | (none, toks', ctr') => ([], toks', ctr')
    | (some n, toks', ctr') =>
      let r := collect_children s fuel toks' ctr'
      (n :: r.1, r.2.1, r.2.2)
end

/-- The top-level children list of `Node::from_html` (src/lib.rs lines
637-650): normalize the events, repeatedly read nodes, wrap them according to
the settings.  The fuel `2 * length + 2` is enough for every recursive call
to make progress. -/
def topChildren (s : LoadSettings) (toks : List Token) : List NodeAccess :=
  let fixed := normalize toks
  let col := collect_children s (2 * fixed.length + 2) fixed 0
  (iter_to s.children_type col.1 col.2.2).1

/-- `Node::from_html` (src/lib.rs lines 351-662) from the token-sequence
boundary on (the quick_xml tokenizer is the out-of-scope collaborator; a
tokenizer error would propagate before this point): `none` iff the top-level
children list is empty, otherwise the synthetic root node. -/
def Node.from_html (toks : List Token) (s : LoadSettings) : Option Node :=
  if (topChildren s toks).isEmpty then none
  else some (Node.mk none none none (topChildren s toks))

mutual
/-- The §3 invariant, recursively: a node never has both a present `text`
and non-empty `children`, nor does any descendant. -/
def nodeInv : Node → Bool
  | Node.mk _ t _ c => (t.isNone || c.isEmpty) && childrenInv c

/-- `nodeInv` behind a `NodeAccess`. -/
def accInv : NodeAccess → Bool
  | NodeAccess.Owned n => nodeInv n
  | NodeAccess.Sharable _ n => nodeInv n

/-- `nodeInv` for every node of a child list. -/
def childrenInv : List NodeAccess → Bool
  | [] => true
  | a :: rest => accInv a && childrenInv rest
end

/-- `NodeAccess::to_sharable` (src/lib.rs lines 319-326): an `Owned` node is
deep-cloned into a fresh `Arc` (fresh allocation id from the counter); a
`Sharable` node is an `Arc` clone — the same allocation, counter unchanged. -/
def NodeAccess.to_sharable : NodeAccess → Nat → NodeAccess × Nat
  | NodeAccess.Owned n, ctr => (NodeAccess.Sharable ctr n, ctr + 1)
  | NodeAccess.Sharable i n, ctr => (NodeAccess.Sharable i n, ctr)

/-- `NodeAccess::to_owned` (src/lib.rs lines 328-335): clone the node value
into an `Owned` (an owned value has no allocation identity). -/
def NodeAccess.to_owned : NodeAccess → NodeAccess
  | NodeAccess.Owned n => NodeAccess.Owned n
  | NodeAccess.Sharable _ n => NodeAccess.Owned n

/-- `Children::to_sharable` (src/lib.rs lines 232-241): convert each child in
order, threading the allocation counter. -/
def childrenToSharable : List NodeAccess → Nat → List NodeAccess × Nat
  | [], ctr => ([], ctr)
  | c :: rest, ctr =>
    let r := NodeAccess.to_sharable c ctr
    let rs := childrenToSharable rest r.2
    (r.1 :: rs.1, rs.2)

/-- The allocation a handle points at: `none` for `Owned` (no shared
allocation), `some id` for `Sharable` — `Arc::ptr_eq` is equality of ids. -/
def sharedId : NodeAccess → Option Nat
  | NodeAccess.Owned _ => none
  | NodeAccess.Sharable i _ => some i

mutual
/-- `PartialEq for Node` (derived, src/lib.rs line 82): field-by-field, with
children compared by the custom `NodeAccess` equality. -/
def Node.beq : Node → Node → Bool
  | Node.mk s1 t1 e1 c1, Node.mk s2 t2 e2 c2 =>
    decide (s1 = s2) && decide (t1 = t2) && decide (e1 = e2) &&
      NodeAccess.listBeq c1 c2

/-- `impl PartialEq for NodeAccess` (src/lib.rs lines 255-281): different
variants are never equal; `Owned` compares the node trees, `Sharable`
compares allocations (`Arc::ptr_eq`). -/
def NodeAccess.beq : NodeAccess → NodeAccess → Bool
  | NodeAccess.Owned a, NodeAccess.Owned b => Node.beq a b
  | NodeAccess.Sharable i _, NodeAccess.Sharable j _ => decide (i = j)
  | _, _ => false

/-- `PartialEq for Children` (derived, src/lib.rs line 61): element-wise. -/
def NodeAccess.listBeq : List NodeAccess → List NodeAccess → Bool
  | [], [] => true
  | a :: l1, b :: l2 => NodeAccess.beq a b && NodeAccess.listBeq l1 l2
  | _, _ => false
end

mutual
/-- A tree all of whose handles are `Owned` (what an `Exclusive` build
produces). -/
def allOwnedN : Node → Bool
  | Node.mk _ _ _ c => allOwnedL c

/-- `allOwnedN` for a child list. -/
def allOwnedL : List NodeAccess → Bool
  | [] => true
  | NodeAccess.Owned n :: rest => allOwnedN n && allOwnedL rest
  | NodeAccess.Sharable _ _ :: _ => false
end

/-- The string-joining loop of `Attribute::values_to_string`
(src/lib.rs lines 1060-1073): values separated by single spaces. -/
def joinSpaces : List String → String
  | [] => ""
  | [v] => v
  | v :: w :: rest => v ++ " " ++ joinSpaces (w :: rest)

/-- `Attribute::values_to_string` (src/lib.rs lines 1050-1074).  The
capacity computation sums `len + 1` over the values and then subtracts 1;
when the values list is empty the sum is 0 and the `usize` subtraction
underflows — a panic, modelled as `none`. -/
def Attribute.values_to_string (a : Attribute) : Option String :=
  let l := a.values.foldl (fun acc v => acc + (v.length + 1)) 0
  if l = 0 then none else some (joinSpaces a.values)

/-- `Node::attributes` (src/lib.rs lines 701-708): the opening tag's
attributes, or `none` when the node has no opening tag. -/
def Node.attributes (n : Node) : Option (List Attribute) :=
  match n.start with
  | some st => some st.attrs
  | none => none

/-- `Node::attribute_by_name` (src/lib.rs lines 710-720): first attribute
with the given name, if the node has an opening tag. -/
def Node.attribute_by_name (n : Node) (key : String) : Option Attribute :=
  match n.start with
  | some st => st.attrs.find? (fun a => a.name == key)
  | none => none

/-- `struct ChildrenFetch` criteria (src/lib.rs lines 156-170); the node to
search is passed separately. -/
structure ChildrenFetch where
  key : Option String
  value : Option String
  value_part : Option String
deriving DecidableEq, Repr

/-- The `check_value_criteria` closure of `ChildrenFetch::fetch`
(src/lib.rs lines 890-907): `some b` says whether the attribute meets the
value criteria; `none` is the panic of `values_to_string` on an attribute
with no values when the exact-value criterion is set. -/
def checkValueCriteria (c : ChildrenFetch) (attr : Attribute) : Option Bool :=
  match c.value with
  | some v =>
    match attr.values_to_string with
    | none => none
    | some s => some (decide (s = v))
  | none =>
    match c.value_part with
    | some p => some (attr.values.contains p)
    | none => some true

/-- The per-attribute loop in the `key = None` branch of
`ChildrenFetch::fetch` (src/lib.rs lines 913-918): the child is pushed once
per attribute that satisfies the value criteria, in attribute order. -/
def attrsMatches (c : ChildrenFetch) (child : NodeAccess) :
    List Attribute → Option (List NodeAccess)
  | [] => some []
  | a :: rest =>
    match checkValueCriteria c a with
    | none => none
    | some b =>
      match attrsMatches c child rest with
      | none => none
      | some l => some (if b then child :: l else l)

/-- The criteria evaluation for one child in `ChildrenFetch::fetch`
(src/lib.rs lines 909-918): with a key, test the single attribute of that
name (missing key: no records); without a key, `child.attributes().unwrap()`
— a panic (`none`) when the child has no opening tag — and every attribute
is tested. -/
def childMatches (c : ChildrenFetch) (child : NodeAccess) :
    Option (List NodeAccess) :=
  match c.key with
  | some k =>
    match Node.attribute_by_name (nodeOf child) k with
    | none => some []
    | some attr =>
      match checkValueCriteria c attr with
      | none => none
      | some b => some (if b then [child] else [])
  | none =>
    match (nodeOf child).attributes with
    | none => none
    | some attrs => attrsMatches c child attrs

/-- The recursive `sub` function of `ChildrenFetch::fetch` (src/lib.rs lines
886-926) over a child list: per child, record the criteria matches, then the
matches found in the child's own subtree, then the following siblings. -/
def fetchChildren (c : ChildrenFetch) : List NodeAccess → Option (List NodeAccess)
  | [] => some []
  | child :: rest =>
    match childMatches c child with
    | none => none
    | some ms =>
      match fetchChildren c (nodeOf child).children with
      | none => none
      | some deeper =>
        match fetchChildren c rest with
        | none => none
        | some restRes => some (ms ++ deeper ++ restRes)
termination_by l => sizeOf l
decreasing_by
  all_goals simp_wf
  all_goals
    first
      | omega
      | exact Nat.lt_of_lt_of_le
          (Nat.lt_trans (sizeOf_children_lt _) (sizeOf_nodeOf_lt _)) (by omega)

/-- `ChildrenFetch::fetch` (src/lib.rs lines 885-929): search the starting
node's descendants. -/
def ChildrenFetch.fetch (c : ChildrenFetch) (n : Node) : Option (List NodeAccess) :=
  fetchChildren c n.children

/-- `ChildrenFetchMut::fetch_mut` (src/lib.rs lines 946-955): delegates to
the immutable `fetch` and casts the references to mutable. -/
def ChildrenFetch.fetch_mut (c : ChildrenFetch) (n : Node) : Option (List NodeAccess) :=
  ChildrenFetch.fetch c n

/-- Some descendant in the forest has no opening tag (`start` is `None`). -/
def hasStartless : List NodeAccess → Bool
  | [] => false
  | a :: rest =>
    ((nodeOf a).start).isNone || hasStartless (nodeOf a).children || hasStartless rest
termination_by l => sizeOf l
decreasing_by
  all_goals simp_wf
  all_goals
    first
      | omega
      | exact Nat.lt_of_lt_of_le
          (Nat.lt_trans (sizeOf_children_lt _) (sizeOf_nodeOf_lt _)) (by omega)

/-- Some descendant in the forest has an attribute named `k` whose values
list is empty. -/
def hasEmptyAttr (k : String) : List NodeAccess → Bool
  | [] => false
  | a :: rest =>
    (match Node.attribute_by_name (nodeOf a) k with
     | some attr => attr.values.isEmpty
     | none => false) || hasEmptyAttr k (nodeOf a).children || hasEmptyAttr k rest
termination_by l => sizeOf l
decreasing_by
  all_goals simp_wf
  all_goals
    first
      | omega
      | exact Nat.lt_of_lt_of_le
          (Nat.lt_trans (sizeOf_children_lt _) (sizeOf_nodeOf_lt _)) (by omega)

/-- The tree built from `<p>hi</p>` under default settings; its `p` element
carries a hoisted text child with no opening tag. -/
def exRootStartless : Node :=
  Node.mk none none none
    [NodeAccess.Owned (Node.mk (some (OpeningTag.mk false "p" []))
      none (some "p")
      [NodeAccess.Owned (Node.mk none (some "hi") none [])])]

/-- A root whose only element carries `href=""` (empty values list). -/
def exRootEmptyAttr : Node :=
  Node.mk none none none
    [NodeAccess.Owned (Node.mk
      (some (OpeningTag.mk false "a" [Attribute.mk "href" []])) none none [])]

/-- The pre-order listing of a forest: each node before its own children,
siblings and subtrees in document order — the visit order of
`ChildrenFetch::fetch`. -/
def preorderL : List NodeAccess → List NodeAccess
  | [] => []
  | child :: rest => child :: (preorderL (nodeOf child).children ++ preorderL rest)
termination_by l => sizeOf l
decreasing_by
  all_goals simp_wf
  all_goals
    first
      | omega
      | exact Nat.lt_of_lt_of_le
          (Nat.lt_trans (sizeOf_children_lt _) (sizeOf_nodeOf_lt _)) (by omega)

/-- Whether `ChildrenFetch::fetch` with key `k` records a node: the single
attribute named `k` exists and meets the value criteria (and its evaluation
does not panic). -/
def keyedMatch (c : ChildrenFetch) (k : String) (child : NodeAccess) : Bool :=
  match Node.attribute_by_name (nodeOf child) k with
  | none => false
  | some attr =>
    match checkValueCriteria c attr with
    | none => false
    | some b => b

/-- A child with two attributes both containing the value token `x`. -/
def dupChild : NodeAccess :=
  NodeAccess.Owned (Node.mk (some (OpeningTag.mk false "p"
    [Attribute.mk "class" ["x", "y"], Attribute.mk "data" ["x"]])) none none [])

/-- A root whose only child is `dupChild`. -/
def dupRoot : Node := Node.mk none none none [dupChild]

/-- A child carrying `id="mydiv"`. -/
def exChildKeyed : NodeAccess :=
  NodeAccess.Owned (Node.mk (some (OpeningTag.mk false "div"
    [Attribute.mk "id" ["mydiv"]])) none none [])

/-- A root whose only child is `exChildKeyed`. -/
def exRootKeyed : Node := Node.mk none none none [exChildKeyed]

example : (nodeOf (NodeAccess.Owned exampleNode)).text = some "hi" := rfl

theorem trim_start_eq_spec (s : String) :
    trim_start s =
      (if leadStripCond s then (⟨s.data.dropWhile isRustWhitespace⟩ : String) else s) := by
  obtain ⟨data⟩ := s
  cases data with
  | nil => simp [trim_start, leadStripCond]
  | cons first rest =>
    have hall : (∀ ch ∈ rest, ch = '\t' ∨ ch = ' ' ∨ ch = '\n') ↔
        (∀ ch ∈ rest, ch = ' ' ∨ ch = '\t' ∨ ch = '\n') := by
      constructor <;> intro hh ch hch <;> rcases hh ch hch with h' | h' | h' <;> tauto
    simp only [trim_start, leadStripCond]
    by_cases h1 : first = '\n'
    · simp [h1]
    · by_cases h2 : first = '\t' ∨ first = ' '
      · by_cases h3 : ∀ ch ∈ rest, ch = '\t' ∨ ch = ' ' ∨ ch = '\n'
        · have h2' : first = ' ' ∨ first = '\t' := by tauto
          simp [h1, h2, h2']
          rw [if_pos h3, if_pos (hall.mp h3)]
        · simp only [h1, h2, ite_true, ite_false, if_pos, if_neg, false_or]
          rw [if_neg h3, if_neg (fun hh => h3 (hall.mpr hh.2))]
      · rw [if_neg h1, if_neg h2,
          if_neg (by rintro (hh | ⟨hh, -⟩); exact h1 hh; tauto)]

theorem normText_eq_spec (s : String) : normText s = normTextSpec s := by
  unfold normText normTextSpec trim_end
  rw [trim_start_eq_spec]

example : normText "  " = none := by decide
example : normText " a" = some " a" := by decide
example : normText "\n  hi  " = some "hi  " := by decide
example : normText "hi \n " = some "hi" := by decide

example :
    Node.from_html [Token.Start "p" [], Token.Text "hi", Token.End "p"]
      LoadSettings.default =
    some (Node.mk none none none
      [NodeAccess.Owned (Node.mk (some { empty := false, name := "p", attrs := [] })
        none (some "p")
        [NodeAccess.Owned (Node.mk none (some "hi") none [])])]) := by
  rfl

theorem map_nodeOf_iter_to (ct : ChildrenType) (ns : List Node) (ctr : Nat) :
    ((iter_to ct ns ctr).1).map nodeOf = ns := by
  cases ct with
  | Owned =>
    simp only [iter_to, List.map_map]
    have h : (nodeOf ∘ NodeAccess.Owned) = id := funext (fun n => rfl)
    simp [h]
  | Sharable =>
    induction ns generalizing ctr with
    | nil => simp [iter_to, wrapShared]
    | cons n rest ih =>
      simp [iter_to, wrapShared, nodeOf] at *
      exact ih (ctr + 1)

/-- Claim C3: for an element built from a `Start` token, after the children
have been collected the builder sets `end` to the closing-tag name iff the
next unconsumed token is an `End` token whose name equals the opening tag's
name, consuming that token; on an `End` token with a different name, any
other token, or an exhausted sequence, `end` stays absent, the token is not
consumed (it stays available for an ancestor call), and no error is raised
(a node is still emitted). -/
theorem next_node_end_matching (fuel : Nat) (s : LoadSettings) (nm : String)
    (ats : List (Option (String × String))) (rest : List Token) (ctr : Nat) :
    (∃ n : Node,
      (next_node s (fuel + 1) (Token.Start nm ats :: rest) ctr).1 = some n ∧
      n.endTag = (matchEnd (firstWord nm)
        (collect_children s fuel (peelText rest).2 ctr).2.1).1 ∧
      (next_node s (fuel + 1) (Token.Start nm ats :: rest) ctr).2.1 =
        (matchEnd (firstWord nm)
          (collect_children s fuel (peelText rest).2 ctr).2.1).2)
    ∧ (∀ (toks : List Token) (e : String),
        ((matchEnd (firstWord nm) toks).1 = some e ↔
          toks.head? = some (Token.End e) ∧ e = firstWord nm)
        ∧ ((matchEnd (firstWord nm) toks).1 = some e →
            (matchEnd (firstWord nm) toks).2 = toks.tail)
        ∧ ((matchEnd (firstWord nm) toks).1 = none →
            (matchEnd (firstWord nm) toks).2 = toks)) := by
  constructor
  · exact ⟨_, rfl, rfl, rfl⟩
  · intro toks e
    match toks with
    | [] => simp [matchEnd]
    | Token.Start nm' ats' :: r => simp [matchEnd]
    | Token.Empty nm' :: r => simp [matchEnd]
    | Token.Text t :: r => simp [matchEnd]
    | Token.End en :: r =>
      by_cases he : en = firstWord nm
      · subst he
        simp [matchEnd]
        intro h
        subst h
        rfl
      · constructor
        · simp [matchEnd, he]
          intro h
          subst h
          simp [he]
        · simp [matchEnd, he]

theorem next_node_end_matching_witness :
    (∃ n : Node,
      (next_node LoadSettings.default (0 + 1)
        (Token.Start "p" [] :: [Token.End "q"]) 0).1 = some n ∧
      n.endTag = (matchEnd (firstWord "p")
        (collect_children LoadSettings.default 0 (peelText [Token.End "q"]).2 0).2.1).1 ∧
      (next_node LoadSettings.default (0 + 1)
        (Token.Start "p" [] :: [Token.End "q"]) 0).2.1 =
        (matchEnd (firstWord "p")
          (collect_children LoadSettings.default 0 (peelText [Token.End "q"]).2 0).2.1).2)
    ∧ (∀ (toks : List Token) (e : String),
        ((matchEnd (firstWord "p") toks).1 = some e ↔
          toks.head? = some (Token.End e) ∧ e = firstWord "p")
        ∧ ((matchEnd (firstWord "p") toks).1 = some e →
            (matchEnd (firstWord "p") toks).2 = toks.tail)
        ∧ ((matchEnd (firstWord "p") toks).1 = none →
            (matchEnd (firstWord "p") toks).2 = toks)) :=
  next_node_end_matching 0 LoadSettings.default "p" [] [Token.End "q"] 0

/-- Claim C4: for an element whose `Start` token is immediately followed by a
`Text` token, the built node hoists that text into a new child node prepended
to its children iff the collected children list is non-empty or
`all_text_separately` is set; otherwise the text is stored in the node's
`text` field and no extra child is created. -/
theorem next_node_text_placement (fuel : Nat) (s : LoadSettings) (nm : String)
    (ats : List (Option (String × String))) (t : String) (rest : List Token)
    (ctr : Nat) :
    ∃ n : Node,
      (next_node s (fuel + 1) (Token.Start nm ats :: Token.Text t :: rest) ctr).1 =
        some n ∧
      (((collect_children s fuel rest ctr).1 ≠ [] ∨ s.all_text_separately = true) →
        n.text = none ∧
        n.children.map nodeOf =
          Node.mk none (some t) none [] :: (collect_children s fuel rest ctr).1) ∧
      (¬ ((collect_children s fuel rest ctr).1 ≠ [] ∨ s.all_text_separately = true) →
        n.text = some t ∧
        n.children.map nodeOf = (collect_children s fuel rest ctr).1) := by
  refine ⟨_, rfl, ?_, ?_⟩ <;>
    intro h <;>
    simp only [next_node, peelText, placeText, Node.text, Node.children]
  · have hc : (!(collect_children s fuel rest ctr).1.isEmpty
        || s.all_text_separately) = true := by
      rcases h with h | h
      · simp [List.isEmpty_iff, h]
      · simp [h]
    rw [if_pos hc]
    simp [map_nodeOf_iter_to]
  · push_neg at h
    obtain ⟨h1, h2⟩ := h
    have hc : (!(collect_children s fuel rest ctr).1.isEmpty
        || s.all_text_separately) = false := by
      simp [List.isEmpty_iff, h1, h2]
    rw [if_neg (by simp [hc])]
    simp [map_nodeOf_iter_to]

theorem accInv_eq (a : NodeAccess) : accInv a = nodeInv (nodeOf a) := by
  cases a <;> rfl

theorem childrenInv_iff (l : List NodeAccess) :
    childrenInv l = true ↔ ∀ a ∈ l, nodeInv (nodeOf a) = true := by
  induction l with
  | nil => simp [childrenInv]
  | cons a rest ih => simp [childrenInv, ih, accInv_eq]

theorem map_nodeOf_empty {l : List NodeAccess} {ns : List Node}
    (h : l.map nodeOf = ns) : l.isEmpty = ns.isEmpty := by
  cases l <;> cases ns <;> simp_all

theorem childrenInv_iter_to (ct : ChildrenType) (ns : List Node) (ctr : Nat)
    (h : ∀ n ∈ ns, nodeInv n = true) :
    childrenInv (iter_to ct ns ctr).1 = true := by
  rw [childrenInv_iff]
  intro a ha
  apply h
  rw [← map_nodeOf_iter_to ct ns ctr]
  exact List.mem_map_of_mem nodeOf ha

theorem placeText_inv (allSep : Bool) (text : Option String) (children : List Node)
    (h : ∀ n ∈ children, nodeInv n = true) :
    (((placeText allSep text children).1).isNone = true ∨
      ((placeText allSep text children).2).isEmpty = true)
    ∧ ∀ n ∈ (placeText allSep text children).2, nodeInv n = true := by
  match text with
  | none => exact ⟨Or.inl rfl, h⟩
  | some t =>
    simp only [placeText]
    by_cases hc : (!children.isEmpty || allSep) = true
    · rw [if_pos hc]
      refine ⟨Or.inl rfl, ?_⟩
      intro n hn
      rcases List.mem_cons.mp hn with hn | hn
      · subst hn
        simp [nodeInv, childrenInv]
      · exact h n hn
    · rw [if_neg hc]
      simp only [Bool.or_eq_true, Bool.not_eq_true', not_or] at hc
      exact ⟨Or.inr (by simp [hc.1]), h⟩

theorem builder_inv (s : LoadSettings) (fuel : Nat) :
    (∀ toks ctr n, (next_node s fuel toks ctr).1 = some n → nodeInv n = true)
    ∧ (∀ toks ctr, ∀ n ∈ (collect_children s fuel toks ctr).1, nodeInv n = true) := by
  induction fuel with
  | zero =>
    constructor
    · intro toks ctr n h
      simp [next_node] at h
    · intro toks ctr n h
      simp [collect_children] at h
  | succ fuel ih =>
    obtain ⟨ihn, ihc⟩ := ih
    constructor
    · intro toks ctr n h
      match toks with
      | [] => simp [next_node] at h
      | Token.Start nm ats :: rest =>
        simp only [next_node, Option.some.injEq] at h
        subst h
        have hplace := placeText_inv s.all_text_separately
          (peelText rest).1 (collect_children s fuel (peelText rest).2 ctr).1
          (ihc (peelText rest).2 ctr)
        simp only [nodeInv, Bool.and_eq_true, Bool.or_eq_true]
        constructor
        · rcases hplace.1 with hh | hh
          · exact Or.inl hh
          · refine Or.inr ?_
            rw [← map_nodeOf_empty (map_nodeOf_iter_to s.children_type _ _)] at hh
            exact hh
        · exact childrenInv_iter_to _ _ _ hplace.2
      | Token.Text t :: rest =>
        simp only [next_node, Option.some.injEq] at h
        subst h
        simp [nodeInv, childrenInv]
      | Token.Empty nm :: rest =>
        simp only [next_node, Option.some.injEq] at h
        subst h
        simp [nodeInv, childrenInv]
      | Token.End e :: rest =>
        simp [next_node] at h
    · intro toks ctr n h
      simp only [collect_children] at h
      rcases hn : next_node s fuel toks ctr with ⟨o, toks', ctr'⟩
      rw [hn] at h
      match o with
      | none => simp at h
      | some m =>
        simp only [List.mem_cons] at h
        rcases h with h | h
        · subst h
          exact ihn toks ctr _ (by rw [hn])
        · exact ihc toks' ctr' n h

/-- Claim C7: every node of a tree returned by `from_html` — root and all
descendants — never has both a present `text` and a non-empty `children`
list. -/
theorem from_html_text_children_invariant (toks : List Token) (s : LoadSettings)
    (root : Node) (h : Node.from_html toks s = some root) :
    nodeInv root = true := by
  unfold Node.from_html at h
  by_cases he : (topChildren s toks).isEmpty
  · rw [if_pos he] at h
    exact absurd h (by simp)
  · rw [if_neg he] at h
    injection h with h
    subst h
    simp only [nodeInv, Bool.and_eq_true]
    refine ⟨by simp [Option.isNone], ?_⟩
    unfold topChildren
    apply childrenInv_iter_to
    exact (builder_inv s _).2 _ _

theorem from_html_text_children_invariant_witness :
    nodeInv (Node.mk none none none
      [NodeAccess.Owned (Node.mk (some { empty := false, name := "p", attrs := [] })
        none (some "p")
        [NodeAccess.Owned (Node.mk none (some "hi") none [])])]) = true :=
  from_html_text_children_invariant
    [Token.Start "p" [], Token.Text "hi", Token.End "p"]
    LoadSettings.default _ rfl

theorem normalize_nil_of_all_blank (toks : List Token)
    (h : ∀ t ∈ toks, ∃ s', t = Token.Text s' ∧ normText s' = none) :
    normalize toks = [] := by
  induction toks with
  | nil => rfl
  | cons t rest ih =>
    obtain ⟨s', hts, hns⟩ := h t (by simp)
    subst hts
    simp only [normalize, hns]
    exact ih (fun t ht => h t (by simp [ht]))

theorem iter_to_nil (ct : ChildrenType) (ctr : Nat) : (iter_to ct [] ctr).1 = [] := by
  cases ct <;> rfl

/-- Claim C8: a token sequence that is empty or whose tokens are all `Text`
tokens normalizing to nothing yields the "no tree" outcome (`none`), not an
error or an empty root; and a root is returned iff the top-level child list
is non-empty. -/
theorem from_html_empty_none (toks : List Token) (st : LoadSettings) :
    ((∀ t ∈ toks, ∃ s', t = Token.Text s' ∧ normText s' = none) →
      Node.from_html toks st = none)
    ∧ ((Node.from_html toks st).isSome = true ↔
        (topChildren st toks).isEmpty = false) := by
  constructor
  · intro h
    have hn : normalize toks = [] := normalize_nil_of_all_blank toks h
    have ht : topChildren st toks = [] := by
      unfold topChildren
      rw [hn]
      exact iter_to_nil _ _
    simp [Node.from_html, ht]
  · unfold Node.from_html
    by_cases he : (topChildren st toks).isEmpty
    · simp [he]
    · simp [he]

theorem from_html_empty_none_witness :
    Node.from_html [Token.Text " "] LoadSettings.default = none ∧
    ((Node.from_html [Token.Text " "] LoadSettings.default).isSome = true ↔
      (topChildren LoadSettings.default [Token.Text " "]).isEmpty = false) :=
  ⟨(from_html_empty_none [Token.Text " "] LoadSettings.default).1
    (by
      intro t ht
      simp only [List.mem_singleton] at ht
      subst ht
      exact ⟨" ", rfl, by decide⟩),
   (from_html_empty_none [Token.Text " "] LoadSettings.default).2⟩

theorem next_node_text_placement_witness :
    (∃ n : Node,
      (next_node LoadSettings.default (0 + 1)
        (Token.Start "p" [] :: Token.Text "hi" :: []) 0).1 = some n ∧
      (((collect_children LoadSettings.default 0 [] 0).1 ≠ [] ∨
          LoadSettings.default.all_text_separately = true) →
        n.text = none ∧
        n.children.map nodeOf =
          Node.mk none (some "hi") none [] ::
            (collect_children LoadSettings.default 0 [] 0).1) ∧
      (¬ ((collect_children LoadSettings.default 0 [] 0).1 ≠ [] ∨
          LoadSettings.default.all_text_separately = true) →
        n.text = some "hi" ∧
        n.children.map nodeOf = (collect_children LoadSettings.default 0 [] 0).1)) :=
  next_node_text_placement 0 LoadSettings.default "p" [] "hi" [] 0

mutual
theorem beq_iff_eq_node : ∀ (a b : Node), allOwnedN a = true → allOwnedN b = true →
    (Node.beq a b = true ↔ a = b)
  | Node.mk s1 t1 e1 c1, Node.mk s2 t2 e2 c2, h1, h2 => by
    simp only [allOwnedN] at h1 h2
    simp only [Node.beq, Bool.and_eq_true, decide_eq_true_eq, Node.mk.injEq]
    constructor
    · rintro ⟨⟨⟨hs, ht⟩, he⟩, hc⟩
      exact ⟨hs, ht, he, (beq_iff_eq_list c1 c2 h1 h2).mp hc⟩
    · rintro ⟨hs, ht, he, hc⟩
      exact ⟨⟨⟨hs, ht⟩, he⟩, (beq_iff_eq_list c1 c2 h1 h2).mpr hc⟩

theorem beq_iff_eq_list : ∀ (l1 l2 : List NodeAccess), allOwnedL l1 = true →
    allOwnedL l2 = true → (NodeAccess.listBeq l1 l2 = true ↔ l1 = l2)
  | [], [], _, _ => by simp [NodeAccess.listBeq]
  | [], b :: l2, _, _ => by simp [NodeAccess.listBeq]
  | a :: l1, [], _, _ => by simp [NodeAccess.listBeq]
  | NodeAccess.Sharable _ _ :: l1, b :: l2, h1, h2 => by
    simp [allOwnedL] at h1
  | NodeAccess.Owned na :: l1, NodeAccess.Sharable _ _ :: l2, h1, h2 => by
    simp [allOwnedL] at h2
  | NodeAccess.Owned na :: l1, NodeAccess.Owned nb :: l2, h1, h2 => by
    simp only [allOwnedL, Bool.and_eq_true] at h1 h2
    simp only [NodeAccess.listBeq, NodeAccess.beq, Bool.and_eq_true,
      List.cons.injEq, NodeAccess.Owned.injEq]
    rw [beq_iff_eq_node na nb h1.1 h2.1, beq_iff_eq_list l1 l2 h1.2 h2.2]
end

/-- Claim C5: `NodeAccess` equality is variant-asymmetric (cross-variant
values are never equal); two `Owned` (Exclusive) values compare by the
`Node` tree equality, which is recursive and field-by-field and coincides
with structural equality on all-owned trees; two `Sharable` (Shared) values
are equal iff they point at the same allocation, so content-identical but
independently allocated shared nodes are unequal. -/
theorem node_access_equality_semantics :
    (∀ (a b : Node) (i : Nat),
      NodeAccess.beq (NodeAccess.Owned a) (NodeAccess.Sharable i b) = false ∧
      NodeAccess.beq (NodeAccess.Sharable i b) (NodeAccess.Owned a) = false)
    ∧ (∀ a b : Node,
        NodeAccess.beq (NodeAccess.Owned a) (NodeAccess.Owned b) = Node.beq a b)
    ∧ (∀ s1 t1 e1 c1 s2 t2 e2 c2,
        Node.beq (Node.mk s1 t1 e1 c1) (Node.mk s2 t2 e2 c2) = true ↔
          (s1 = s2 ∧ t1 = t2 ∧ e1 = e2 ∧ NodeAccess.listBeq c1 c2 = true))
    ∧ (∀ (i j : Nat) (a b : Node),
        NodeAccess.beq (NodeAccess.Sharable i a) (NodeAccess.Sharable j b) = true ↔
          i = j)
    ∧ (∀ (n : Node) (i j : Nat), i ≠ j →
        NodeAccess.beq (NodeAccess.Sharable i n) (NodeAccess.Sharable j n) = false)
    ∧ (∀ a b : Node, allOwnedN a = true → allOwnedN b = true →
        (Node.beq a b = true ↔ a = b)) := by
  refine ⟨?_, ?_, ?_, ?_, ?_, beq_iff_eq_node⟩
  · intro a b i
    exact ⟨rfl, rfl⟩
  · intro a b
    rfl
  · intro s1 t1 e1 c1 s2 t2 e2 c2
    simp [Node.beq, Bool.and_eq_true, decide_eq_true_eq, and_assoc]
  · intro i j a b
    simp [NodeAccess.beq]
  · intro n i j hij
    simp [NodeAccess.beq, hij]

theorem node_access_equality_semantics_witness :
    NodeAccess.beq (NodeAccess.Sharable 0 (Node.mk none none none []))
      (NodeAccess.Sharable 1 (Node.mk none none none [])) = false ∧
    (Node.beq (Node.mk none none none []) (Node.mk none none none []) = true ↔
      (Node.mk none none none [] : Node) = Node.mk none none none []) :=
  ⟨(node_access_equality_semantics.2.2.2.2.1
      (Node.mk none none none []) 0 1 (by decide)),
   (node_access_equality_semantics.2.2.2.2.2
      (Node.mk none none none []) (Node.mk none none none []) rfl rfl)⟩

/-- Claim C2 counterexample: `to_sharable` applied to a `Sharable` handle
returns a handle with the same allocation id (an `Arc` clone of the same
allocation), not a fresh copy — refuting "the result never aliases the
input's allocation". -/
theorem to_sharable_aliases_shared_cex :
    (NodeAccess.to_sharable (NodeAccess.Sharable 0 (Node.mk none none none [])) 7).1 =
      NodeAccess.Sharable 0 (Node.mk none none none []) ∧
    sharedId ((NodeAccess.to_sharable
        (NodeAccess.Sharable 0 (Node.mk none none none [])) 7).1) =
      sharedId (NodeAccess.Sharable 0 (Node.mk none none none [])) :=
  ⟨rfl, rfl⟩

/-- Claim C2 (amended): `to_owned` always yields a non-aliasing `Owned` deep
copy of the tree; `to_sharable` deep-clones an `Owned` input into a fresh
allocation, but for a `Sharable` input it clones the reference-counted
handle, returning another pointer to the same allocation; `Children`
conversion applies the element conversion in order. -/
theorem conversion_cloning (n : Node) (a : NodeAccess) (rest : List NodeAccess)
    (i ctr : Nat) :
    NodeAccess.to_owned (NodeAccess.Owned n) = NodeAccess.Owned n
    ∧ NodeAccess.to_owned (NodeAccess.Sharable i n) = NodeAccess.Owned n
    ∧ sharedId (NodeAccess.to_owned a) = none
    ∧ NodeAccess.to_sharable (NodeAccess.Owned n) ctr =
        (NodeAccess.Sharable ctr n, ctr + 1)
    ∧ NodeAccess.to_sharable (NodeAccess.Sharable i n) ctr =
        (NodeAccess.Sharable i n, ctr)
    ∧ (childrenToSharable (a :: rest) ctr).1 =
        (NodeAccess.to_sharable a ctr).1 ::
          (childrenToSharable rest (NodeAccess.to_sharable a ctr).2).1 := by
  refine ⟨rfl, rfl, ?_, rfl, rfl, rfl⟩
  cases a <;> rfl

example : fetchChildren (ChildrenFetch.mk none none none)
    [NodeAccess.Owned (Node.mk
      (some (OpeningTag.mk false "p" [Attribute.mk "a" ["1"]])) none none [])] =
    some [NodeAccess.Owned (Node.mk
      (some (OpeningTag.mk false "p" [Attribute.mk "a" ["1"]])) none none [])] := by
  simp [fetchChildren, childMatches, attrsMatches, checkValueCriteria,
    Node.attributes, nodeOf, Node.start, Node.children]

theorem childMatches_none_of_startless (c : ChildrenFetch) (child : NodeAccess)
    (hk : c.key = none) (hstart : (nodeOf child).start = none) :
    childMatches c child = none := by
  simp [childMatches, hk, Node.attributes, hstart]

theorem sizeOf_cons (a : NodeAccess) (l : List NodeAccess) :
    sizeOf (a :: l) = 1 + sizeOf a + sizeOf l := by
  simp

theorem fetchChildren_none_of_startless (c : ChildrenFetch) (hk : c.key = none) :
    ∀ l : List NodeAccess, hasStartless l = true → fetchChildren c l = none := by
  have main : ∀ (k : Nat) (l : List NodeAccess), sizeOf l < k →
      hasStartless l = true → fetchChildren c l = none := by
    intro k
    induction k with
    | zero =>
      intro l hs
      exact absurd hs (by omega)
    | succ k ih =>
      intro l hs hst
      match l with
      | [] => simp [hasStartless] at hst
      | child :: rest =>
        have hc1 := sizeOf_children_lt (nodeOf child)
        have hc2 := sizeOf_nodeOf_lt child
        have hcons := sizeOf_cons child rest
        simp only [hasStartless, Bool.or_eq_true] at hst
        rcases hst with (hst | hst) | hst
        · have hcm := childMatches_none_of_startless c child hk
            (by simpa [Option.isNone_iff_eq_none] using hst)
          simp [fetchChildren, hcm]
        · rcases hm : childMatches c child with - | ms
          · simp [fetchChildren, hm]
          · have hd := ih (nodeOf child).children (by omega) hst
            simp [fetchChildren, hm, hd]
        · rcases hm : childMatches c child with - | ms
          · simp [fetchChildren, hm]
          · rcases hd : fetchChildren c (nodeOf child).children with - | deeper
            · simp [fetchChildren, hm, hd]
            · have hr := ih rest (by omega) hst
              simp [fetchChildren, hm, hd, hr]
  intro l
  exact main (sizeOf l + 1) l (by omega)

/-- Claim C9: when the key criterion is unset, the criteria search panics
(`attributes().unwrap()` on `None`) as soon as the pre-order traversal
reaches a descendant with no opening tag — such as the hoisted text child
that default settings produce for any element containing text — instead of
skipping that node; `fetch_mut` shares the behavior since it delegates to
`fetch`. -/
theorem fetch_startless_panics (c : ChildrenFetch) (n : Node) (hk : c.key = none)
    (h : hasStartless n.children = true) :
    ChildrenFetch.fetch c n = none ∧ ChildrenFetch.fetch_mut c n = none := by
  have hf : ChildrenFetch.fetch c n = none :=
    fetchChildren_none_of_startless c hk n.children h
  exact ⟨hf, hf⟩

theorem fetch_startless_panics_witness :
    Node.from_html [Token.Start "p" [], Token.Text "hi", Token.End "p"]
      LoadSettings.default = some exRootStartless ∧
    ChildrenFetch.fetch (ChildrenFetch.mk none none none) exRootStartless = none ∧
    ChildrenFetch.fetch_mut (ChildrenFetch.mk none none none) exRootStartless = none := by
  have h := fetch_startless_panics (ChildrenFetch.mk none none none) exRootStartless
    rfl (by simp [exRootStartless, hasStartless, nodeOf, Node.start, Node.children])
  exact ⟨rfl, h.1, h.2⟩

theorem splitWsGo_all_ws :
    ∀ l : List Char, l.all isRustWhitespace = true → splitWsGo l [] = [] := by
  intro l
  induction l with
  | nil => intro _; rfl
  | cons ch rest ih =>
    intro h
    simp only [List.all_cons, Bool.and_eq_true] at h
    simp only [splitWsGo, h.1, if_true, List.isEmpty]
    exact ih h.2

theorem values_to_string_nil (a : Attribute) (h : a.values = []) :
    a.values_to_string = none := by
  simp [Attribute.values_to_string, h]

theorem childMatches_none_of_emptyAttr (c : ChildrenFetch) (child : NodeAccess)
    (k v : String) (attr : Attribute) (hk : c.key = some k) (hv : c.value = some v)
    (ha : Node.attribute_by_name (nodeOf child) k = some attr)
    (he : attr.values.isEmpty = true) :
    childMatches c child = none := by
  have hvs := values_to_string_nil attr (by simpa [List.isEmpty_iff] using he)
  simp [childMatches, hk, ha, checkValueCriteria, hv, hvs]

theorem fetchChildren_none_of_emptyAttr (c : ChildrenFetch) (k v : String)
    (hk : c.key = some k) (hv : c.value = some v) :
    ∀ l : List NodeAccess, hasEmptyAttr k l = true → fetchChildren c l = none := by
  have main : ∀ (fu : Nat) (l : List NodeAccess), sizeOf l < fu →
      hasEmptyAttr k l = true → fetchChildren c l = none := by
    intro fu
    induction fu with
    | zero =>
      intro l hs
      exact absurd hs (by omega)
    | succ fu ih =>
      intro l hs hst
      match l with
      | [] => simp [hasEmptyAttr] at hst
      | child :: rest =>
        have hc1 := sizeOf_children_lt (nodeOf child)
        have hc2 := sizeOf_nodeOf_lt child
        have hcons := sizeOf_cons child rest
        simp only [hasEmptyAttr, Bool.or_eq_true] at hst
        rcases hst with (hst | hst) | hst
        · rcases ha : Node.attribute_by_name (nodeOf child) k with - | attr
          · rw [ha] at hst
            simp at hst
          · rw [ha] at hst
            have hcm := childMatches_none_of_emptyAttr c child k v attr hk hv ha hst
            simp [fetchChildren, hcm]
        · rcases hm : childMatches c child with - | ms
          · simp [fetchChildren, hm]
          · have hd := ih (nodeOf child).children (by omega) hst
            simp [fetchChildren, hm, hd]
        · rcases hm : childMatches c child with - | ms
          · simp [fetchChildren, hm]
          · rcases hd : fetchChildren c (nodeOf child).children with - | deeper
            · simp [fetchChildren, hm, hd]
            · have hr := ih rest (by omega) hst
              simp [fetchChildren, hm, hd, hr]
  intro l
  exact main (sizeOf l + 1) l (by omega)

/-- Claim C10: an attribute parsed from an empty (or all-whitespace) raw
value has an empty values list; `values_to_string` on such an attribute
panics (`usize` underflow in the capacity computation) instead of returning
the empty string; and a criteria search with the exact-value criterion set
panics when it examines such an attribute. -/
theorem empty_values_panics :
    (∀ (nm raw : String), raw.data.all isRustWhitespace = true →
      (Attribute.from_name_and_str_values nm raw).values = [])
    ∧ (∀ a : Attribute, a.values = [] → a.values_to_string = none)
    ∧ (∀ (c : ChildrenFetch) (k v : String) (n : Node), c.key = some k →
        c.value = some v → hasEmptyAttr k n.children = true →
        ChildrenFetch.fetch c n = none) := by
  refine ⟨?_, values_to_string_nil, ?_⟩
  · intro nm raw h
    simp only [Attribute.from_name_and_str_values, splitWhitespaceS]
    exact splitWsGo_all_ws raw.data h
  · intro c k v n hk hv h
    exact fetchChildren_none_of_emptyAttr c k v hk hv n.children h

theorem empty_values_panics_witness :
    (Attribute.from_name_and_str_values "href" "").values = [] ∧
    (Attribute.mk "href" []).values_to_string = none ∧
    ChildrenFetch.fetch (ChildrenFetch.mk (some "href") (some "x") none)
      exRootEmptyAttr = none := by
  refine ⟨empty_values_panics.1 "href" "" (by decide),
    empty_values_panics.2.1 (Attribute.mk "href" []) rfl,
    empty_values_panics.2.2 (ChildrenFetch.mk (some "href") (some "x") none)
      "href" "x" exRootEmptyAttr rfl rfl ?_⟩
  simp [exRootEmptyAttr, hasEmptyAttr, nodeOf, Node.children,
    Node.attribute_by_name, Node.start, List.find?]

theorem attrsMatches_filter (c : ChildrenFetch) (child : NodeAccess) :
    ∀ (attrs : List Attribute) (l : List NodeAccess),
      attrsMatches c child attrs = some l →
      l = (attrs.filter (fun a => decide (checkValueCriteria c a = some true))).map
        (fun _ => child) := by
  intro attrs
  induction attrs with
  | nil =>
    intro l h
    simp only [attrsMatches, Option.some.injEq] at h
    subst h
    rfl
  | cons a rest ih =>
    intro l h
    simp only [attrsMatches] at h
    rcases hv : checkValueCriteria c a with - | b
    · rw [hv] at h
      simp at h
    · rw [hv] at h
      rcases hr : attrsMatches c child rest with - | l'
      · rw [hr] at h
        simp at h
      · rw [hr] at h
        simp only [Option.some.injEq] at h
        subst h
        cases b with
        | true => simp [List.filter_cons, hv, ih l' hr]
        | false => simp [List.filter_cons, hv, ih l' hr]

theorem fetchChildren_keyed_filter_aux (c : ChildrenFetch) (k : String)
    (hk : c.key = some k) :
    ∀ (l res : List NodeAccess), fetchChildren c l = some res →
      res = (preorderL l).filter (keyedMatch c k) := by
  have main : ∀ (fu : Nat) (l : List NodeAccess), sizeOf l < fu →
      ∀ res, fetchChildren c l = some res →
        res = (preorderL l).filter (keyedMatch c k) := by
    intro fu
    induction fu with
    | zero =>
      intro l hs
      exact absurd hs (by omega)
    | succ fu ih =>
      intro l hs res hres
      match l with
      | [] =>
        simp only [fetchChildren, Option.some.injEq] at hres
        subst hres
        simp [preorderL]
      | child :: rest =>
        have hc1 := sizeOf_children_lt (nodeOf child)
        have hc2 := sizeOf_nodeOf_lt child
        have hcons := sizeOf_cons child rest
        simp only [fetchChildren] at hres
        rcases hm : childMatches c child with - | ms
        · rw [hm] at hres
          simp at hres
        · rw [hm] at hres
          rcases hd : fetchChildren c (nodeOf child).children with - | deeper
          · rw [hd] at hres
            simp at hres
          · rw [hd] at hres
            rcases hr : fetchChildren c rest with - | restRes
            · rw [hr] at hres
              simp at hres
            · rw [hr] at hres
              simp only [Option.some.injEq] at hres
              subst hres
              have hdeep := ih (nodeOf child).children (by omega) deeper hd
              have hrest := ih rest (by omega) restRes hr
              have hms : ms = if keyedMatch c k child then [child] else [] := by
                rcases ha : Node.attribute_by_name (nodeOf child) k with - | attr
                · simp only [childMatches, hk, ha, Option.some.injEq] at hm
                  simp [keyedMatch, ha, ← hm]
                · rcases hv : checkValueCriteria c attr with - | b
                  · simp only [childMatches, hk, ha, hv] at hm
                    exact absurd hm (by simp)
                  · simp only [childMatches, hk, ha, hv, Option.some.injEq] at hm
                    simp [keyedMatch, ha, hv, ← hm]
              rw [hdeep, hrest, hms]
              simp only [preorderL, List.filter_cons, List.filter_append]
              cases hkm : keyedMatch c k child <;> simp [hkm]
  intro l res h
  exact main (sizeOf l + 1) l (by omega) res h

/-- Claim C1 (amended): when the key criterion is set, the result of the
criteria search is exactly the pre-order filter of the descendants, so every
tested node is recorded at most once per tree position; when the key
criterion is unset, the per-child recording is one entry per attribute
meeting the value criteria, so a child with several matching attributes is
recorded several times. -/
theorem fetch_keyed_preorder_filter :
    (∀ (c : ChildrenFetch) (k : String) (n : Node) (res : List NodeAccess),
      c.key = some k → ChildrenFetch.fetch c n = some res →
      res = (preorderL n.children).filter (keyedMatch c k))
    ∧ (∀ (c : ChildrenFetch) (child : NodeAccess) (attrs : List Attribute)
        (l : List NodeAccess), attrsMatches c child attrs = some l →
        l = (attrs.filter (fun a => decide (checkValueCriteria c a = some true))).map
          (fun _ => child)) := by
  constructor
  · intro c k n res hk h
    exact fetchChildren_keyed_filter_aux c k hk n.children res h
  · exact attrsMatches_filter

/-- Claim C1 counterexample: with the key criterion unset and `value_part`
matching two of the child's attributes, the child is recorded twice in the
result — the result list is not duplicate-free. -/
theorem fetch_duplicate_recording_cex :
    ChildrenFetch.fetch (ChildrenFetch.mk none none (some "x")) dupRoot =
      some [dupChild, dupChild] ∧
    ¬ ([dupChild, dupChild] : List NodeAccess).Nodup := by
  constructor
  · simp [dupRoot, dupChild, ChildrenFetch.fetch, fetchChildren, childMatches,
      attrsMatches, checkValueCriteria, Node.attributes, nodeOf, Node.start,
      Node.children]
  · simp [List.nodup_cons]

theorem fetch_keyed_preorder_filter_witness :
    ChildrenFetch.fetch (ChildrenFetch.mk (some "id") none none) exRootKeyed =
      some [exChildKeyed] ∧
    [exChildKeyed] = (preorderL exRootKeyed.children).filter
      (keyedMatch (ChildrenFetch.mk (some "id") none none) "id") := by
  have h1 : ChildrenFetch.fetch (ChildrenFetch.mk (some "id") none none)
      exRootKeyed = some [exChildKeyed] := by
    simp [exRootKeyed, exChildKeyed, ChildrenFetch.fetch, fetchChildren,
      childMatches, checkValueCriteria, Node.attribute_by_name, nodeOf,
      Node.start, Node.children, List.find?]
  exact ⟨h1, fetch_keyed_preorder_filter.1
    (ChildrenFetch.mk (some "id") none none) "id" exRootKeyed [exChildKeyed] rfl h1⟩

/-- Claim C6: the whitespace normalizer equals the spec's description — a
`Text` token's leading whitespace is stripped exactly when its first
character is a newline, or its first character is a space or tab and every
remaining character is a space, tab or newline; trailing whitespace is
stripped exactly when the text contains a newline; a token that becomes
empty is dropped; and the pass is a `filterMap`, so the relative order of
all surviving tokens is preserved. -/
theorem normalize_eq_spec (toks : List Token) : normalize toks = normalizeSpec toks := by
  induction toks with
  | nil => rfl
  | cons t rest ih =>
    cases t with
    | Start nm ats =>
      simp only [normalize, normalizeSpec, List.filterMap_cons,
        ← normText_eq_spec] at ih ⊢
      simpa using ih
    | End nm =>
      simp only [normalize, normalizeSpec, List.filterMap_cons,
        ← normText_eq_spec] at ih ⊢
      simpa using ih
    | Empty nm =>
      simp only [normalize, normalizeSpec, List.filterMap_cons,
        ← normText_eq_spec] at ih ⊢
      simpa using ih
    | Text s =>
      simp only [normalize, normalizeSpec, List.filterMap_cons,
        ← normText_eq_spec] at ih ⊢
      cases h : normText s with
      | none => simpa [h] using ih
      | some t' => simpa [h] using ih

end HtmlDom
